import Mathlib

/-!
Verification of the `splaytree` Go package: a splay tree storing comparable
values as a multiset, with `splay`, `Insert`, `Delete`, `Min`, `Max`,
`Height`, `Len` and `Iterate`.

The embedding models a `*Node` pointer as an inductive tree with a `nil`
constructor.  The Go `Value` interface supplies `Compare(v2) int` returning
1 / -1 / 0 for greater / less / equal; we model values by a linearly ordered
type and `Compare` by `cmpVal`.  The `splay` routine is generic over the key
object: it only ever calls `key.Compare(nodeValue)`, so we embed the key as a
function `k : α → Int` (for a real value `v` the function is `cmpVal v`; for
the `greatestValue` sentinel it is `fun _ => 1`).
-/

namespace Splaytree

variable {α : Type} {k : α → Int}

/-- A `*Node` in the Go code: either the nil pointer or a node with a value
and two child pointers.  A `Tree` in Go is just a root `*Node`, so this type
also stands for trees. -/
inductive Node (α : Type) where
  | nil : Node α
  | node (value : α) (left : Node α) (right : Node α) : Node α
deriving Repr, DecidableEq

open Node

/-- In-order traversal of the tree, the sequence of stored values from
leftmost to rightmost. -/
def toList : Node α → List α
  | .nil => []
  | .node x l r => toList l ++ x :: toList r

/-- `Node.Len` from the generic variant: recursive node count. -/
def len : Node α → Nat
  | .nil => 0
  | .node _ l r => 1 + len l + len r

/-- `Node.height`: 0 for nil, otherwise `1 + h1` if `h1 > h2` else `1 + h2`
for the child heights `h1`, `h2`. -/
def height : Node α → Nat
  | .nil => 0
  | .node _ l r =>
    let h1 := height l
    let h2 := height r
    if h1 > h2 then 1 + h1 else 1 + h2

/-- The `Compare` method of a concrete comparable value (as implemented by
`NumValue.Compare` in the tests and documented on the `Value` interface):
`cmpVal v y` is 1 when `v > y`, -1 when `v < y`, and 0 when they are equal.
`cmpVal v` is the key function that `splay(&root, v)` threads through. -/
def cmpVal [LinearOrder α] (v y : α) : Int :=
  if v > y then 1 else if v < y then -1 else 0

/-- `greatestValue{}.Compare`: always returns 1, so the corresponding key
function is constantly 1. -/
def greatestKey : α → Int := fun _ => 1

/-- The Go `ptr == nil` test on a `*Node`. -/
def isNil : Node α → Bool
  | .nil => true
  | .node _ _ _ => false

/-- The `.Left` field of a `*Node` (reading a field of the nil pointer is a
state the Go code never reaches; it collapses to nil here). -/
def leftCh : Node α → Node α
  | .nil => .nil
  | .node _ l _ => l

/-- The `.Right` field of a `*Node` (reading a field of the nil pointer is a
state the Go code never reaches; it collapses to nil here). -/
def rightCh : Node α → Node α
  | .nil => .nil
  | .node _ _ r => r

/-- Reassign both child fields of a node, as the rotation pointer surgery
does with `n2.Left = …; n2.Right = …` (on the nil pointer — unreachable in
the Go code — this collapses to nil). -/
def withChildren : Node α → Node α → Node α → Node α
  | .nil, _, _ => .nil
  | .node x _ _, l, r => .node x l r

/-- The recursive top-down `splay(root **Node, v Value)` routine, embedded as
a function from the old `*root` to the new `*root`.  `k y` is
`v.Compare(y)`.  Each rotation rebuilds exactly the pointer assignments of
the Go code: `n2` is the recursively splayed grandchild (never nil, see
`splay_eq_nil`, so `leftCh`/`rightCh`/`withChildren` read and rewrite the
fields the Go code reads and rewrites). -/
def splay (k : α → Int) : Node α → Node α
  | .nil => .nil
  | .node x l r =>
    if k x < 0 then
      match l with
      | .nil => .node x l r
      | .node x1 l1 r1 =>
        if k x1 > 0 ∧ isNil r1 = false then
          let n2 := splay k r1
          withChildren n2 (.node x1 l1 (leftCh n2)) (.node x (rightCh n2) r)
        else if k x1 < 0 ∧ isNil l1 = false then
          let n2 := splay k l1
          withChildren n2 (leftCh n2) (.node x1 (rightCh n2) (.node x r1 r))
        else
          .node x1 l1 (.node x r1 r)
    else if k x > 0 then
      match r with
      | .nil => .node x l r
      | .node x1 l1 r1 =>
        if k x1 < 0 ∧ isNil l1 = false then
          let n2 := splay k l1
          withChildren n2 (.node x l (leftCh n2)) (.node x1 (rightCh n2) r1)
        else if k x1 > 0 ∧ isNil r1 = false then
          let n2 := splay k r1
          withChildren n2 (.node x1 (.node x l l1) (leftCh n2)) (rightCh n2)
        else
          .node x1 (.node x l l1) r1
    else
      .node x l r

/-- `Tree.Insert(v)`: on an empty tree make `v` the sole root; otherwise
splay toward `v` and hang the splayed root under a new root holding `v`,
splitting at the old root's left (when `v` compares `< 0` or `0` against it)
or right (when `> 0`) link.  The inner `.nil` fallback is unreachable. -/
def insert [LinearOrder α] (v : α) (t : Node α) : Node α :=
  match t with
  | .nil => .node v .nil .nil
  | .node _ _ _ =>
    match splay (cmpVal v) t with
    | .nil => .nil
    | .node rx rl rr =>
      let comparison := cmpVal v rx
      if comparison < 0 then .node v rl (.node rx .nil rr)
      else if comparison > 0 then .node v (.node rx rl .nil) rr
      else .node v rl (.node rx .nil rr)

/-- `Tree.Delete(v)`: return on an empty tree; splay toward `v`; return if
the splayed root does not compare equal to `v`; otherwise drop the root,
promoting its right child when the left is nil, and otherwise splaying the
left subtree toward the `greatestValue` sentinel and attaching the old right
subtree as the (overwritten) right child of the resulting root.  The inner
`.nil` fallbacks are unreachable. -/
def delete [LinearOrder α] (v : α) (t : Node α) : Node α :=
  match t with
  | .nil => .nil
  | .node _ _ _ =>
    match splay (cmpVal v) t with
    | .nil => .nil
    | .node rx rl rr =>
      if cmpVal v rx ≠ 0 then .node rx rl rr
      else
        match rl with
        | .nil => rr
        | .node _ _ _ =>
          match splay greatestKey rl with
          | .nil => .nil
          | .node mx ml _ => .node mx ml rr

/-- `Tree.Min`: walk the left child links to the end and return that value;
the nil interface value returned on an empty tree is modelled as `none`. -/
def minVal : Node α → Option α
  | .nil => none
  | .node x l _ =>
    match l with
    | .nil => some x
    | .node _ _ _ => minVal l

/-- `Tree.Max`: walk the right child links to the end and return that value;
the nil interface value returned on an empty tree is modelled as `none`. -/
def maxVal : Node α → Option α
  | .nil => none
  | .node x _ r =>
    match r with
    | .nil => some x
    | .node _ _ _ => maxVal r

/-- `Node.Iterate(f)` instrumented with its effect trace: returns the list of
values `f` is called on, in call order, together with the boolean the Go
method returns (`false` as soon as some call of `f` returns false). -/
def iterate (f : α → Bool) : Node α → List α × Bool
  | .nil => ([], true)
  | .node x l r =>
    if (iterate f l).2 = false then ((iterate f l).1, false)
    else if f x = false then ((iterate f l).1 ++ [x], false)
    else ((iterate f l).1 ++ x :: (iterate f r).1, (iterate f r).2)

/-- One public mutating call: `Insert(v)` or `Delete(v)`. -/
inductive Op (α : Type) where
  | ins (v : α) : Op α
  | del (v : α) : Op α
deriving Repr, DecidableEq

/-- Apply one operation to a tree. -/
def applyOp [LinearOrder α] (t : Node α) : Op α → Node α
  | .ins v => insert v t
  | .del v => delete v t

/-- Run a sequence of `Insert`/`Delete` calls against a starting tree. -/
def applyOps [LinearOrder α] (t : Node α) : List (Op α) → Node α
  | [] => t
  | op :: ops => applyOps (applyOp t op) ops

/-- The empty tree a fresh `Tree{}` starts from. -/
def emptyTree : Node α := .nil

/-- The BST ordering invariant exactly as the spec phrases it: at every node,
the left subtree holds only values `≤` the node's value and the right subtree
only values `≥` it. -/
def Bst [LinearOrder α] : Node α → Prop
  | .nil => True
  | .node x l r =>
    (∀ y ∈ toList l, y ≤ x) ∧ (∀ y ∈ toList r, x ≤ y) ∧ Bst l ∧ Bst r

/-- The root value of a tree (`none` for the nil pointer). -/
def rootVal : Node α → Option α
  | .nil => none
  | .node x _ _ => some x

/-- The naive BST search path from the root toward `v`: at each node compare
`v` with the node's value and descend left / right on strictly-less /
strictly-greater, stopping at an equal node or when the wanted child is
absent. -/
def searchPath [LinearOrder α] (v : α) : Node α → List α
  | .nil => []
  | .node x l r =>
    if cmpVal v x < 0 then x :: searchPath v l
    else if cmpVal v x > 0 then x :: searchPath v r
    else [x]

/-- Whether the naive BST search starting at the root reaches a node whose
value compares equal to `v`. -/
def bstFind [LinearOrder α] (v : α) : Node α → Bool
  | .nil => false
  | .node x l r =>
    if cmpVal v x < 0 then bstFind v l
    else if cmpVal v x > 0 then bstFind v r
    else true

/-- Reference run of a visit function down a list: call `f` on each element
in order, keeping the values visited; stop right after the first call that
returns false. -/
def runVisit (f : α → Bool) : List α → List α × Bool
  | [] => ([], true)
  | x :: xs =>
    if f x then (x :: (runVisit f xs).1, (runVisit f xs).2)
    else ([x], false)

/-- Number of `Insert(v)` calls with `v` comparing equal to `x` in a call
sequence. -/
def insCount [LinearOrder α] (x : α) : List (Op α) → Nat
  | [] => 0
  | .ins v :: ops => (if v = x then 1 else 0) + insCount x ops
  | .del _ :: ops => insCount x ops

/-- Number of successful `Delete(v)` calls with `v` comparing equal to `x`
in a call sequence run against `t`: a delete is successful exactly when a
node equal to `v` is present at the time. -/
def succDelCount [LinearOrder α] (x : α) : Node α → List (Op α) → Nat
  | _, [] => 0
  | t, .ins v :: ops => succDelCount x (insert v t) ops
  | t, .del v :: ops =>
    (if v = x ∧ v ∈ toList t then 1 else 0) + succDelCount x (delete v t) ops

/-- Total number of `Insert` calls in a call sequence. -/
def insTotal : List (Op α) → Nat
  | [] => 0
  | .ins _ :: ops => 1 + insTotal ops
  | .del _ :: ops => insTotal ops

/-- Total number of successful `Delete` calls in a call sequence run against
`t`. -/
def succDelTotal [LinearOrder α] : Node α → List (Op α) → Nat
  | _, [] => 0
  | t, .ins v :: ops => succDelTotal (insert v t) ops
  | t, .del v :: ops =>
    (if v ∈ toList t then 1 else 0) + succDelTotal (delete v t) ops

theorem toList_eq_nil {t : Node α} : toList t = [] ↔ t = .nil := by
  cases t <;> simp [toList]

theorem isNil_false {t : Node α} : isNil t = false ↔ t ≠ .nil := by
  cases t <;> simp [isNil]

theorem len_toList (t : Node α) : len t = (toList t).length := by
  induction t with
  | nil => rfl
  | node x l r ihl ihr => simp [len, toList, ihl, ihr]; omega

theorem splay_nil : splay k (.nil : Node α) = .nil := by rw [splay.eq_def]

theorem splay_stay {x : α} {l r : Node α} (h1 : ¬ k x < 0) (h2 : ¬ k x > 0) :
    splay k (.node x l r) = .node x l r := by
  rw [splay.eq_def]; simp [h1, h2]

theorem splay_lt_leaf {x : α} {r : Node α} (h : k x < 0) :
    splay k (.node x .nil r) = .node x .nil r := by
  rw [splay.eq_def]; simp [h]

theorem splay_gt_leaf {x : α} {l : Node α} (h1 : ¬ k x < 0) (h2 : k x > 0) :
    splay k (.node x l .nil) = .node x l .nil := by
  rw [splay.eq_def]; simp [h1, h2]

theorem splay_lt_zigzag {x x1 : α} {l1 r1 r : Node α}
    (h : k x < 0) (h1 : k x1 > 0) (h2 : r1 ≠ .nil) :
    splay k (.node x (.node x1 l1 r1) r) =
      withChildren (splay k r1) (.node x1 l1 (leftCh (splay k r1)))
        (.node x (rightCh (splay k r1)) r) := by
  rw [splay.eq_def]; simp [h, h1, isNil_false.mpr h2]

theorem splay_lt_zigzig {x x1 : α} {l1 r1 r : Node α}
    (h : k x < 0) (hn : ¬ (k x1 > 0 ∧ r1 ≠ .nil)) (h1 : k x1 < 0) (h2 : l1 ≠ .nil) :
    splay k (.node x (.node x1 l1 r1) r) =
      withChildren (splay k l1) (leftCh (splay k l1))
        (.node x1 (rightCh (splay k l1)) (.node x r1 r)) := by
  rw [splay.eq_def]
  simp [h, h1, isNil_false.mpr h2, hn, isNil_false]

theorem splay_lt_zig {x x1 : α} {l1 r1 r : Node α}
    (h : k x < 0) (hn1 : ¬ (k x1 > 0 ∧ r1 ≠ .nil)) (hn2 : ¬ (k x1 < 0 ∧ l1 ≠ .nil)) :
    splay k (.node x (.node x1 l1 r1) r) = .node x1 l1 (.node x r1 r) := by
  rw [splay.eq_def]
  simp [h, hn1, hn2, isNil_false]

theorem splay_gt_zigzag {x x1 : α} {l l1 r1 : Node α}
    (hg1 : ¬ k x < 0) (h : k x > 0) (h1 : k x1 < 0) (h2 : l1 ≠ .nil) :
    splay k (.node x l (.node x1 l1 r1)) =
      withChildren (splay k l1) (.node x l (leftCh (splay k l1)))
        (.node x1 (rightCh (splay k l1)) r1) := by
  rw [splay.eq_def]; simp [hg1, h, h1, isNil_false.mpr h2]

theorem splay_gt_zigzig {x x1 : α} {l l1 r1 : Node α}
    (hg1 : ¬ k x < 0) (h : k x > 0) (hn : ¬ (k x1 < 0 ∧ l1 ≠ .nil)) (h1 : k x1 > 0)
    (h2 : r1 ≠ .nil) :
    splay k (.node x l (.node x1 l1 r1)) =
      withChildren (splay k r1) (.node x1 (.node x l l1) (leftCh (splay k r1)))
        (rightCh (splay k r1)) := by
  rw [splay.eq_def]
  simp [hg1, h, h1, hn, isNil_false.mpr h2, isNil_false]

theorem splay_gt_zig {x x1 : α} {l l1 r1 : Node α}
    (hg1 : ¬ k x < 0) (h : k x > 0) (hn1 : ¬ (k x1 < 0 ∧ l1 ≠ .nil))
    (hn2 : ¬ (k x1 > 0 ∧ r1 ≠ .nil)) :
    splay k (.node x l (.node x1 l1 r1)) = .node x1 (.node x l l1) r1 := by
  rw [splay.eq_def]
  simp [hg1, h, hn1, hn2, isNil_false]

theorem toList_splay (k : α → Int) (t : Node α) : toList (splay k t) = toList t := by
  induction t using splay.induct k with
  | case1 => rw [splay_nil]
  | case2 x r hx => rw [splay_lt_leaf hx]
  | case3 x r hx x1 l1 r1 hc ih =>
    obtain ⟨h1, h2⟩ := hc
    have h2' : r1 ≠ .nil := isNil_false.mp h2
    rw [splay_lt_zigzag hx h1 h2']
    cases hn : splay k r1 with
    | nil =>
      have : toList r1 = [] := by rw [← ih, hn, toList]
      exact absurd (toList_eq_nil.mp this) h2'
    | node x2 l2 r2 =>
      rw [hn] at ih
      simp only [toList] at ih
      simp only [withChildren, leftCh, rightCh, toList]
      rw [← ih]
      simp [List.append_assoc]
  | case4 x r hx x1 l1 r1 hnc hc ih =>
    obtain ⟨h1, h2⟩ := hc
    have h2' : l1 ≠ .nil := isNil_false.mp h2
    have hnc' : ¬ (k x1 > 0 ∧ r1 ≠ .nil) := by simpa [isNil_false] using hnc
    rw [splay_lt_zigzig hx hnc' h1 h2']
    cases hn : splay k l1 with
    | nil =>
      have : toList l1 = [] := by rw [← ih, hn, toList]
      exact absurd (toList_eq_nil.mp this) h2'
    | node x2 l2 r2 =>
      rw [hn] at ih
      simp only [toList] at ih
      simp only [withChildren, leftCh, rightCh, toList]
      rw [← ih]
      simp [List.append_assoc]
  | case5 x r hx x1 l1 r1 hnc1 hnc2 =>
    have hnc1' : ¬ (k x1 > 0 ∧ r1 ≠ .nil) := by simpa [isNil_false] using hnc1
    have hnc2' : ¬ (k x1 < 0 ∧ l1 ≠ .nil) := by simpa [isNil_false] using hnc2
    rw [splay_lt_zig hx hnc1' hnc2']
    simp [toList, List.append_assoc]
  | case6 x l hx1 hx2 => rw [splay_gt_leaf hx1 hx2]
  | case7 x l hx1 hx2 x1 l1 r1 hc ih =>
    obtain ⟨h1, h2⟩ := hc
    have h2' : l1 ≠ .nil := isNil_false.mp h2
    rw [splay_gt_zigzag hx1 hx2 h1 h2']
    cases hn : splay k l1 with
    | nil =>
      have : toList l1 = [] := by rw [← ih, hn, toList]
      exact absurd (toList_eq_nil.mp this) h2'
    | node x2 l2 r2 =>
      rw [hn] at ih
      simp only [toList] at ih
      simp only [withChildren, leftCh, rightCh, toList]
      rw [← ih]
      simp [List.append_assoc]
  | case8 x l hx1 hx2 x1 l1 r1 hnc hc ih =>
    obtain ⟨h1, h2⟩ := hc
    have h2' : r1 ≠ .nil := isNil_false.mp h2
    have hnc' : ¬ (k x1 < 0 ∧ l1 ≠ .nil) := by simpa [isNil_false] using hnc
    rw [splay_gt_zigzig hx1 hx2 hnc' h1 h2']
    cases hn : splay k r1 with
    | nil =>
      have : toList r1 = [] := by rw [← ih, hn, toList]
      exact absurd (toList_eq_nil.mp this) h2'
    | node x2 l2 r2 =>
      rw [hn] at ih
      simp only [toList] at ih
      simp only [withChildren, leftCh, rightCh, toList]
      rw [← ih]
      simp [List.append_assoc]
  | case9 x l hx1 hx2 x1 l1 r1 hnc1 hnc2 =>
    have hnc1' : ¬ (k x1 < 0 ∧ l1 ≠ .nil) := by simpa [isNil_false] using hnc1
    have hnc2' : ¬ (k x1 > 0 ∧ r1 ≠ .nil) := by simpa [isNil_false] using hnc2
    rw [splay_gt_zig hx1 hx2 hnc1' hnc2']
    simp [toList, List.append_assoc]
  | case10 x l r hx1 hx2 => rw [splay_stay hx1 hx2]

theorem splay_eq_nil (k : α → Int) (t : Node α) : splay k t = .nil ↔ t = .nil := by
  rw [← toList_eq_nil, ← toList_eq_nil (t := t), toList_splay]

theorem len_splay (k : α → Int) (t : Node α) : len (splay k t) = len t := by
  rw [len_toList, len_toList, toList_splay]

theorem cmpVal_lt [LinearOrder α] {v y : α} : cmpVal v y < 0 ↔ v < y := by
  unfold cmpVal
  split
  · next h => simp; exact le_of_lt h
  · split
    · next h => simp [h]
    · next h1 h2 => simp; exact le_of_not_lt h2

theorem cmpVal_gt [LinearOrder α] {v y : α} : cmpVal v y > 0 ↔ y < v := by
  unfold cmpVal
  split
  · next h => simp [h]
  · split
    · next h => simp; exact le_of_lt h
    · next h1 h2 => simp; exact le_of_not_lt h1

theorem cmpVal_zero [LinearOrder α] {v y : α} : cmpVal v y = 0 ↔ v = y := by
  unfold cmpVal
  split
  · next h => simp; exact ne_of_gt h
  · split
    · next h => simp; exact ne_of_lt h
    · next h1 h2 => simp; exact le_antisymm (le_of_not_lt h1) (le_of_not_lt h2)

theorem mem_toList_node {y x : α} {l r : Node α} :
    y ∈ toList (.node x l r) ↔ y ∈ toList l ∨ y = x ∨ y ∈ toList r := by
  simp [toList]

theorem bst_iff_sorted [LinearOrder α] (t : Node α) :
    Bst t ↔ (toList t).Sorted (· ≤ ·) := by
  induction t with
  | nil => simp [Bst, toList, List.Sorted]
  | node x l r ihl ihr =>
    simp only [Bst, toList, List.Sorted, List.pairwise_append, List.pairwise_cons, ihl, ihr,
      List.Sorted, List.mem_cons]
    constructor
    · rintro ⟨hL, hR, hl, hr⟩
      refine ⟨hl, ⟨hR, hr⟩, ?_⟩
      intro a ha b hb
      rcases hb with rfl | hb
      · exact hL a ha
      · exact le_trans (hL a ha) (hR b hb)
    · rintro ⟨hl, ⟨hR, hr⟩, hmix⟩
      exact ⟨fun a ha => hmix a ha x (Or.inl rfl), hR, hl, hr⟩

/-- After splaying a BST toward a value `v`, everything in the new root's
left subtree is `≤ v` and everything in its right subtree is `≥ v`. -/
theorem splay_bounds [LinearOrder α] {v : α} {t : Node α} (hb : Bst t) :
    ∀ rx rl rr, splay (cmpVal v) t = .node rx rl rr →
      (∀ y ∈ toList rl, y ≤ v) ∧ (∀ y ∈ toList rr, v ≤ y) := by
  induction t using splay.induct (cmpVal v) with
  | case1 =>
    intro rx rl rr h
    rw [splay_nil] at h
    exact absurd h (by simp)
  | case2 x r hx =>
    intro rx rl rr h
    rw [splay_lt_leaf hx] at h
    cases h
    obtain ⟨hL, hR, _, _⟩ := hb
    refine ⟨by simp [toList], fun y hy => le_trans (le_of_lt (cmpVal_lt.mp hx)) (hR y hy)⟩
  | case3 x r hx x1 l1 r1 hc ih =>
    intro rx rl rr h
    obtain ⟨h1, h2⟩ := hc
    have h2' : r1 ≠ .nil := isNil_false.mp h2
    have hv : v < x := cmpVal_lt.mp hx
    have hv1 : x1 < v := cmpVal_gt.mp h1
    obtain ⟨hL, hR, hbl, hbr⟩ := hb
    obtain ⟨hl1, hr1, hbl1, hbr1⟩ := hbl
    rw [splay_lt_zigzag hx h1 h2'] at h
    cases hn : splay (cmpVal v) r1 with
    | nil => exact absurd ((splay_eq_nil _ _).mp hn) h2'
    | node x2 l2 r2 =>
      rw [hn] at h
      simp only [withChildren, leftCh, rightCh] at h
      cases h
      obtain ⟨ihl, ihr⟩ := ih hbr1 _ _ _ hn
      constructor
      · intro y hy
        rcases mem_toList_node.mp hy with hy | rfl | hy
        · exact le_trans (hl1 y hy) (le_of_lt hv1)
        · exact le_of_lt hv1
        · exact ihl y hy
      · intro y hy
        rcases mem_toList_node.mp hy with hy | rfl | hy
        · exact ihr y hy
        · exact le_of_lt hv
        · exact le_trans (le_of_lt hv) (hR y hy)
  | case4 x r hx x1 l1 r1 hnc hc ih =>
    intro rx rl rr h
    obtain ⟨h1, h2⟩ := hc
    have h2' : l1 ≠ .nil := isNil_false.mp h2
    have hnc' : ¬ (cmpVal v x1 > 0 ∧ r1 ≠ .nil) := by simpa [isNil_false] using hnc
    have hv : v < x := cmpVal_lt.mp hx
    have hv1 : v < x1 := cmpVal_lt.mp h1
    obtain ⟨hL, hR, hbl, hbr⟩ := hb
    obtain ⟨hl1, hr1, hbl1, hbr1⟩ := hbl
    rw [splay_lt_zigzig hx hnc' h1 h2'] at h
    cases hn : splay (cmpVal v) l1 with
    | nil => exact absurd ((splay_eq_nil _ _).mp hn) h2'
    | node x2 l2 r2 =>
      rw [hn] at h
      simp only [withChildren, leftCh, rightCh] at h
      cases h
      obtain ⟨ihl, ihr⟩ := ih hbl1 _ _ _ hn
      constructor
      · exact ihl
      · intro y hy
        rcases mem_toList_node.mp hy with hy | rfl | hy
        · exact ihr y hy
        · exact le_of_lt hv1
        · rcases mem_toList_node.mp hy with hy | rfl | hy
          · exact le_trans (le_of_lt hv1) (hr1 y hy)
          · exact le_of_lt hv
          · exact le_trans (le_of_lt hv) (hR y hy)
  | case5 x r hx x1 l1 r1 hnc1 hnc2 =>
    intro rx rl rr h
    have hnc1' : ¬ (cmpVal v x1 > 0 ∧ r1 ≠ .nil) := by simpa [isNil_false] using hnc1
    have hnc2' : ¬ (cmpVal v x1 < 0 ∧ l1 ≠ .nil) := by simpa [isNil_false] using hnc2
    have hv : v < x := cmpVal_lt.mp hx
    obtain ⟨hL, hR, hbl, hbr⟩ := hb
    obtain ⟨hl1, hr1, hbl1, hbr1⟩ := hbl
    rw [splay_lt_zig hx hnc1' hnc2'] at h
    cases h
    constructor
    · intro y hy
      cases hl : l1 with
      | nil => rw [hl] at hy; simp [toList] at hy
      | node a b c =>
        have : ¬ v < x1 := fun hlt => hnc2' ⟨cmpVal_lt.mpr hlt, by rw [hl]; simp⟩
        exact le_trans (hl1 y hy) (le_of_not_lt this)
    · intro y hy
      rcases mem_toList_node.mp hy with hy | rfl | hy
      · cases hr' : r1 with
        | nil => rw [hr'] at hy; simp [toList] at hy
        | node a b c =>
          have : ¬ x1 < v := fun hlt => hnc1' ⟨cmpVal_gt.mpr hlt, by rw [hr']; simp⟩
          exact le_trans (le_of_not_lt this) (hr1 y hy)
      · exact le_of_lt hv
      · exact le_trans (le_of_lt hv) (hR y hy)
  | case6 x l hx1 hx2 =>
    intro rx rl rr h
    rw [splay_gt_leaf hx1 hx2] at h
    cases h
    obtain ⟨hL, hR, _, _⟩ := hb
    have hv : x < v := cmpVal_gt.mp hx2
    exact ⟨fun y hy => le_trans (hL y hy) (le_of_lt hv), by simp [toList]⟩
  | case7 x l hx1 hx2 x1 l1 r1 hc ih =>
    intro rx rl rr h
    obtain ⟨h1, h2⟩ := hc
    have h2' : l1 ≠ .nil := isNil_false.mp h2
    have hv : x < v := cmpVal_gt.mp hx2
    have hv1 : v < x1 := cmpVal_lt.mp h1
    obtain ⟨hL, hR, hbl, hbr⟩ := hb
    obtain ⟨hl1, hr1, hbl1, hbr1⟩ := hbr
    rw [splay_gt_zigzag hx1 hx2 h1 h2'] at h
    cases hn : splay (cmpVal v) l1 with
    | nil => exact absurd ((splay_eq_nil _ _).mp hn) h2'
    | node x2 l2 r2 =>
      rw [hn] at h
      simp only [withChildren, leftCh, rightCh] at h
      cases h
      obtain ⟨ihl, ihr⟩ := ih hbl1 _ _ _ hn
      constructor
      · intro y hy
        rcases mem_toList_node.mp hy with hy | rfl | hy
        · exact le_trans (hL y hy) (le_of_lt hv)
        · exact le_of_lt hv
        · exact ihl y hy
      · intro y hy
        rcases mem_toList_node.mp hy with hy | rfl | hy
        · exact ihr y hy
        · exact le_of_lt hv1
        · exact le_trans (le_of_lt hv1) (hr1 y hy)
  | case8 x l hx1 hx2 x1 l1 r1 hnc hc ih =>
    intro rx rl rr h
    obtain ⟨h1, h2⟩ := hc
    have h2' : r1 ≠ .nil := isNil_false.mp h2
    have hnc' : ¬ (cmpVal v x1 < 0 ∧ l1 ≠ .nil) := by simpa [isNil_false] using hnc
    have hv : x < v := cmpVal_gt.mp hx2
    have hv1 : x1 < v := cmpVal_gt.mp h1
    obtain ⟨hL, hR, hbl, hbr⟩ := hb
    obtain ⟨hl1, hr1, hbl1, hbr1⟩ := hbr
    rw [splay_gt_zigzig hx1 hx2 hnc' h1 h2'] at h
    cases hn : splay (cmpVal v) r1 with
    | nil => exact absurd ((splay_eq_nil _ _).mp hn) h2'
    | node x2 l2 r2 =>
      rw [hn] at h
      simp only [withChildren, leftCh, rightCh] at h
      cases h
      obtain ⟨ihl, ihr⟩ := ih hbr1 _ _ _ hn
      constructor
      · intro y hy
        rcases mem_toList_node.mp hy with hy | rfl | hy
        · rcases mem_toList_node.mp hy with hy | rfl | hy
          · exact le_trans (hL y hy) (le_of_lt hv)
          · exact le_of_lt hv
          · exact le_trans (hl1 y hy) (le_of_lt hv1)
        · exact le_of_lt hv1
        · exact ihl y hy
      · exact ihr
  | case9 x l hx1 hx2 x1 l1 r1 hnc1 hnc2 =>
    intro rx rl rr h
    have hnc1' : ¬ (cmpVal v x1 < 0 ∧ l1 ≠ .nil) := by simpa [isNil_false] using hnc1
    have hnc2' : ¬ (cmpVal v x1 > 0 ∧ r1 ≠ .nil) := by simpa [isNil_false] using hnc2
    have hv : x < v := cmpVal_gt.mp hx2
    obtain ⟨hL, hR, hbl, hbr⟩ := hb
    obtain ⟨hl1, hr1, hbl1, hbr1⟩ := hbr
    rw [splay_gt_zig hx1 hx2 hnc1' hnc2'] at h
    cases h
    constructor
    · intro y hy
      rcases mem_toList_node.mp hy with hy | rfl | hy
      · exact le_trans (hL y hy) (le_of_lt hv)
      · exact le_of_lt hv
      · cases hl : l1 with
        | nil => rw [hl] at hy; simp [toList] at hy
        | node a b c =>
          have : ¬ v < x1 := fun hlt => hnc1' ⟨cmpVal_lt.mpr hlt, by rw [hl]; simp⟩
          exact le_trans (hl1 y hy) (le_of_not_lt this)
    · intro y hy
      cases hr' : r1 with
      | nil => rw [hr'] at hy; simp [toList] at hy
      | node a b c =>
        have : ¬ x1 < v := fun hlt => hnc2' ⟨cmpVal_gt.mpr hlt, by rw [hr']; simp⟩
        exact le_trans (le_of_not_lt this) (hr1 y hy)
  | case10 x l r hx1 hx2 =>
    intro rx rl rr h
    rw [splay_stay hx1 hx2] at h
    cases h
    have hv : v = x := le_antisymm (le_of_not_lt (fun hlt => hx2 (cmpVal_gt.mpr hlt)))
      (le_of_not_lt (fun hlt => hx1 (cmpVal_lt.mpr hlt)))
    obtain ⟨hL, hR, _, _⟩ := hb
    exact ⟨fun y hy => hv ▸ hL y hy, fun y hy => hv ▸ hR y hy⟩

theorem bst_splay [LinearOrder α] {t : Node α} (k : α → Int) (hb : Bst t) :
    Bst (splay k t) := by
  rw [bst_iff_sorted, toList_splay]
  exact (bst_iff_sorted t).mp hb

theorem searchPath_ne_nil [LinearOrder α] {v : α} {t : Node α} (h : t ≠ .nil) :
    searchPath v t ≠ [] := by
  cases t with
  | nil => exact absurd rfl h
  | node x l r =>
    unfold searchPath
    split
    · simp
    · split <;> simp

theorem getLast?_cons_of_ne_nil {x : α} {L : List α} (h : L ≠ []) :
    (x :: L).getLast? = L.getLast? := by
  cases L with
  | nil => exact absurd rfl h
  | cons a L' => exact List.getLast?_cons_cons

/-- The splayed root is the last node examined by the naive BST search. -/
theorem rootVal_splay [LinearOrder α] {v : α} {t : Node α} (h : t ≠ .nil) :
    rootVal (splay (cmpVal v) t) = (searchPath v t).getLast? := by
  induction t using splay.induct (cmpVal v) with
  | case1 => exact absurd rfl h
  | case2 x r hx =>
    rw [splay_lt_leaf hx]
    simp [searchPath, hx, rootVal]
  | case3 x r hx x1 l1 r1 hc ih =>
    obtain ⟨h1, h2⟩ := hc
    have h2' : r1 ≠ .nil := isNil_false.mp h2
    have hgt : ¬ cmpVal v x1 < 0 := by
      intro hlt
      have := cmpVal_lt.mp hlt
      have := cmpVal_gt.mp h1
      exact absurd (lt_trans ‹v < x1› ‹x1 < v›) (lt_irrefl v)
    rw [splay_lt_zigzag hx h1 h2']
    cases hn : splay (cmpVal v) r1 with
    | nil => exact absurd ((splay_eq_nil _ _).mp hn) h2'
    | node x2 l2 r2 =>
      simp only [withChildren, leftCh, rightCh, rootVal]
      have ihv := ih h2'
      rw [hn] at ihv
      simp only [rootVal] at ihv
      rw [searchPath, if_pos hx, searchPath, if_neg hgt, if_pos h1,
        getLast?_cons_of_ne_nil, getLast?_cons_of_ne_nil (searchPath_ne_nil h2')]
      · exact ihv
      · exact List.cons_ne_nil _ _
  | case4 x r hx x1 l1 r1 hnc hc ih =>
    obtain ⟨h1, h2⟩ := hc
    have h2' : l1 ≠ .nil := isNil_false.mp h2
    have hnc' : ¬ (cmpVal v x1 > 0 ∧ r1 ≠ .nil) := by simpa [isNil_false] using hnc
    rw [splay_lt_zigzig hx hnc' h1 h2']
    cases hn : splay (cmpVal v) l1 with
    | nil => exact absurd ((splay_eq_nil _ _).mp hn) h2'
    | node x2 l2 r2 =>
      simp only [withChildren, leftCh, rightCh, rootVal]
      have ihv := ih h2'
      rw [hn] at ihv
      simp only [rootVal] at ihv
      rw [searchPath, if_pos hx, searchPath, if_pos h1,
        getLast?_cons_of_ne_nil, getLast?_cons_of_ne_nil (searchPath_ne_nil h2')]
      · exact ihv
      · exact List.cons_ne_nil _ _
  | case5 x r hx x1 l1 r1 hnc1 hnc2 =>
    have hnc1' : ¬ (cmpVal v x1 > 0 ∧ r1 ≠ .nil) := by simpa [isNil_false] using hnc1
    have hnc2' : ¬ (cmpVal v x1 < 0 ∧ l1 ≠ .nil) := by simpa [isNil_false] using hnc2
    rw [splay_lt_zig hx hnc1' hnc2']
    simp only [rootVal]
    rw [searchPath, if_pos hx, getLast?_cons_of_ne_nil (searchPath_ne_nil (by simp))]
    unfold searchPath
    split
    · next hlt =>
      have : l1 = .nil := by
        by_contra hne
        exact hnc2' ⟨hlt, hne⟩
      subst this
      simp [searchPath]
    · split
      · next hgt =>
        have : r1 = .nil := by
          by_contra hne
          exact hnc1' ⟨hgt, hne⟩
        subst this
        simp [searchPath]
      · simp
  | case6 x l hx1 hx2 =>
    rw [splay_gt_leaf hx1 hx2]
    simp [searchPath, hx1, hx2, rootVal]
  | case7 x l hx1 hx2 x1 l1 r1 hc ih =>
    obtain ⟨h1, h2⟩ := hc
    have h2' : l1 ≠ .nil := isNil_false.mp h2
    rw [splay_gt_zigzag hx1 hx2 h1 h2']
    cases hn : splay (cmpVal v) l1 with
    | nil => exact absurd ((splay_eq_nil _ _).mp hn) h2'
    | node x2 l2 r2 =>
      simp only [withChildren, leftCh, rightCh, rootVal]
      have ihv := ih h2'
      rw [hn] at ihv
      simp only [rootVal] at ihv
      rw [searchPath, if_neg hx1, if_pos hx2, searchPath, if_pos h1,
        getLast?_cons_of_ne_nil, getLast?_cons_of_ne_nil (searchPath_ne_nil h2')]
      · exact ihv
      · exact List.cons_ne_nil _ _
  | case8 x l hx1 hx2 x1 l1 r1 hnc hc ih =>
    obtain ⟨h1, h2⟩ := hc
    have h2' : r1 ≠ .nil := isNil_false.mp h2
    have hnc' : ¬ (cmpVal v x1 < 0 ∧ l1 ≠ .nil) := by simpa [isNil_false] using hnc
    have hgt : ¬ cmpVal v x1 < 0 := by
      intro hlt
      have := cmpVal_lt.mp hlt
      have := cmpVal_gt.mp h1
      exact absurd (lt_trans ‹v < x1› ‹x1 < v›) (lt_irrefl v)
    rw [splay_gt_zigzig hx1 hx2 hnc' h1 h2']
    cases hn : splay (cmpVal v) r1 with
    | nil => exact absurd ((splay_eq_nil _ _).mp hn) h2'
    | node x2 l2 r2 =>
      simp only [withChildren, leftCh, rightCh, rootVal]
      have ihv := ih h2'
      rw [hn] at ihv
      simp only [rootVal] at ihv
      rw [searchPath, if_neg hx1, if_pos hx2, searchPath, if_neg hgt, if_pos h1,
        getLast?_cons_of_ne_nil, getLast?_cons_of_ne_nil (searchPath_ne_nil h2')]
      · exact ihv
      · exact List.cons_ne_nil _ _
  | case9 x l hx1 hx2 x1 l1 r1 hnc1 hnc2 =>
    have hnc1' : ¬ (cmpVal v x1 < 0 ∧ l1 ≠ .nil) := by simpa [isNil_false] using hnc1
    have hnc2' : ¬ (cmpVal v x1 > 0 ∧ r1 ≠ .nil) := by simpa [isNil_false] using hnc2
    rw [splay_gt_zig hx1 hx2 hnc1' hnc2']
    simp only [rootVal]
    rw [searchPath, if_neg hx1, if_pos hx2,
      getLast?_cons_of_ne_nil (searchPath_ne_nil (by simp))]
    unfold searchPath
    split
    · next hlt =>
      have : l1 = .nil := by
        by_contra hne
        exact hnc1' ⟨hlt, hne⟩
      subst this
      simp [searchPath]
    · split
      · next hgt =>
        have : r1 = .nil := by
          by_contra hne
          exact hnc2' ⟨hgt, hne⟩
        subst this
        simp [searchPath]
      · simp
  | case10 x l r hx1 hx2 =>
    rw [splay_stay hx1 hx2]
    simp [searchPath, hx1, hx2, rootVal]

theorem cmpVal_eq_of_not [LinearOrder α] {v x : α}
    (h1 : ¬ cmpVal v x < 0) (h2 : ¬ cmpVal v x > 0) : v = x :=
  le_antisymm (le_of_not_lt (fun hlt => h2 (cmpVal_gt.mpr hlt)))
    (le_of_not_lt (fun hlt => h1 (cmpVal_lt.mpr hlt)))

theorem bstFind_getLast [LinearOrder α] {v : α} {t : Node α}
    (h : bstFind v t = true) : (searchPath v t).getLast? = some v := by
  induction t with
  | nil => simp [bstFind] at h
  | node x l r ihl ihr =>
    unfold bstFind at h
    unfold searchPath
    split
    · next hlt =>
      rw [if_pos hlt] at h
      have hl : l ≠ .nil := by
        intro hn
        rw [hn] at h
        simp [bstFind] at h
      rw [getLast?_cons_of_ne_nil (searchPath_ne_nil hl)]
      exact ihl h
    · next hge =>
      rw [if_neg hge] at h
      split
      · next hgt =>
        rw [if_pos hgt] at h
        have hr : r ≠ .nil := by
          intro hn
          rw [hn] at h
          simp [bstFind] at h
        rw [getLast?_cons_of_ne_nil (searchPath_ne_nil hr)]
        exact ihr h
      · next hle =>
        simp [cmpVal_eq_of_not hge hle]

theorem bstFind_iff_mem [LinearOrder α] {v : α} {t : Node α} (hb : Bst t) :
    bstFind v t = true ↔ v ∈ toList t := by
  induction t with
  | nil => simp [bstFind, toList]
  | node x l r ihl ihr =>
    obtain ⟨hL, hR, hbl, hbr⟩ := hb
    unfold bstFind
    rw [mem_toList_node]
    split
    · next hlt =>
      have hvx : v < x := cmpVal_lt.mp hlt
      rw [ihl hbl]
      constructor
      · exact Or.inl
      · rintro (h | rfl | h)
        · exact h
        · exact absurd hvx (lt_irrefl v)
        · exact absurd (lt_of_lt_of_le hvx (hR v h)) (lt_irrefl v)
    · next hge =>
      split
      · next hgt =>
        have hxv : x < v := cmpVal_gt.mp hgt
        rw [ihr hbr]
        constructor
        · exact fun h => Or.inr (Or.inr h)
        · rintro (h | rfl | h)
          · exact absurd (lt_of_le_of_lt (hL v h) hxv) (lt_irrefl v)
          · exact absurd hxv (lt_irrefl v)
          · exact h
      · next hle =>
        simp [cmpVal_eq_of_not hge hle]

/-- Splaying toward the always-greater sentinel brings a node with no right
child to the root. -/
theorem splayMax_shape {t : Node α} (h : t ≠ .nil) :
    ∃ mx ml, splay (greatestKey (α := α)) t = .node mx ml .nil := by
  have hg : ∀ y : α, ¬ greatestKey y < 0 := by intro y; simp [greatestKey]
  have hg' : ∀ y : α, greatestKey y > 0 := by intro y; simp [greatestKey]
  induction t using splay.induct (greatestKey (α := α)) with
  | case1 => exact absurd rfl h
  | case2 x r hx => exact absurd hx (hg x)
  | case3 x r hx _ _ _ _ _ => exact absurd hx (hg x)
  | case4 x r hx _ _ _ _ _ _ => exact absurd hx (hg x)
  | case5 x r hx _ _ _ _ _ => exact absurd hx (hg x)
  | case6 x l hx1 hx2 =>
    exact ⟨x, l, splay_gt_leaf hx1 hx2⟩
  | case7 x l hx1 hx2 x1 l1 r1 hc ih =>
    exact absurd hc.1 (by simp [greatestKey])
  | case8 x l hx1 hx2 x1 l1 r1 hnc hc ih =>
    obtain ⟨h1, h2⟩ := hc
    have h2' : r1 ≠ .nil := isNil_false.mp h2
    have hnc' : ¬ (greatestKey x1 < 0 ∧ l1 ≠ .nil) := by simpa [isNil_false] using hnc
    obtain ⟨mx, ml, hsp⟩ := ih h2'
    refine ⟨mx, .node x1 (.node x l l1) ml, ?_⟩
    rw [splay_gt_zigzig hx1 hx2 hnc' h1 h2', hsp]
    simp [withChildren, leftCh, rightCh]
  | case9 x l hx1 hx2 x1 l1 r1 hnc1 hnc2 =>
    have hr1 : r1 = .nil := by
      by_contra hne
      exact (by simpa [isNil_false] using hnc2 : ¬ (greatestKey x1 > 0 ∧ r1 ≠ .nil)) ⟨hg' x1, hne⟩
    have hnc1' : ¬ (greatestKey x1 < 0 ∧ l1 ≠ .nil) := by simpa [isNil_false] using hnc1
    have hnc2' : ¬ (greatestKey x1 > 0 ∧ r1 ≠ .nil) := by simpa [isNil_false] using hnc2
    subst hr1
    exact ⟨x1, .node x l l1, splay_gt_zig hx1 hx2 hnc1' hnc2'⟩
  | case10 x l r hx1 hx2 => exact absurd (hg' x) hx2

theorem insert_nil [LinearOrder α] (v : α) : insert v (.nil : Node α) = .node v .nil .nil := rfl

theorem delete_nil [LinearOrder α] (v : α) : delete v (.nil : Node α) = .nil := rfl

theorem insert_eq [LinearOrder α] {v x rx : α} {l r rl rr : Node α}
    (hsp : splay (cmpVal v) (.node x l r) = .node rx rl rr) :
    insert v (.node x l r) =
      if cmpVal v rx < 0 then .node v rl (.node rx .nil rr)
      else if cmpVal v rx > 0 then .node v (.node rx rl .nil) rr
      else .node v rl (.node rx .nil rr) := by
  unfold insert
  rw [hsp]

theorem delete_no_match [LinearOrder α] {v x rx : α} {l r rl rr : Node α}
    (hsp : splay (cmpVal v) (.node x l r) = .node rx rl rr)
    (hne : cmpVal v rx ≠ 0) :
    delete v (.node x l r) = .node rx rl rr := by
  unfold delete
  rw [hsp]
  simp [hne]

theorem delete_match_nil [LinearOrder α] {v x rx : α} {l r rr : Node α}
    (hsp : splay (cmpVal v) (.node x l r) = .node rx .nil rr)
    (heq : cmpVal v rx = 0) :
    delete v (.node x l r) = rr := by
  unfold delete
  rw [hsp]
  simp [heq]

theorem delete_match [LinearOrder α] {v x rx mx : α} {l r rl rr ml mr : Node α}
    (hsp : splay (cmpVal v) (.node x l r) = .node rx rl rr)
    (heq : cmpVal v rx = 0) (hrl : rl ≠ .nil)
    (hm : splay greatestKey rl = .node mx ml mr) :
    delete v (.node x l r) = .node mx ml rr := by
  unfold delete
  rw [hsp]
  simp only [heq, if_neg (by simp : ¬ (0 : Int) ≠ 0)]
  cases rl with
  | nil => exact absurd rfl hrl
  | node a b c => rw [hm]

theorem insert_perm [LinearOrder α] (v : α) (t : Node α) :
    (toList (insert v t)).Perm (v :: toList t) := by
  cases t with
  | nil => simp [insert_nil, toList]
  | node x l r =>
    cases hsp : splay (cmpVal v) (.node x l r) with
    | nil => exact absurd ((splay_eq_nil _ _).mp hsp) (by simp)
    | node rx rl rr =>
      have hlist : toList (.node x l r) = toList rl ++ rx :: toList rr := by
        rw [← toList_splay (cmpVal v), hsp, toList]
      rw [insert_eq hsp, hlist]
      split
      · rw [toList, toList]
        exact List.perm_middle
      · split
        · rw [toList, toList, toList]
          refine List.perm_middle.trans ?_
          rw [List.append_assoc]
          simp
        · rw [toList, toList]
          exact List.perm_middle

theorem bst_insert [LinearOrder α] {v : α} {t : Node α} (hb : Bst t) :
    Bst (insert v t) := by
  cases t with
  | nil => simp [insert_nil, Bst, toList]
  | node x l r =>
    cases hsp : splay (cmpVal v) (.node x l r) with
    | nil => exact absurd ((splay_eq_nil _ _).mp hsp) (by simp)
    | node rx rl rr =>
      obtain ⟨hbnd1, hbnd2⟩ := splay_bounds hb _ _ _ hsp
      have hbs : Bst (.node rx rl rr) := hsp ▸ bst_splay (cmpVal v) hb
      obtain ⟨hrl, hrr, hbrl, hbrr⟩ := hbs
      rw [insert_eq hsp]
      split
      · next hlt =>
        have hvx : v < rx := cmpVal_lt.mp hlt
        refine ⟨hbnd1, ?_, hbrl, ?_⟩
        · intro y hy
          rcases mem_toList_node.mp hy with hy | rfl | hy
          · simp [toList] at hy
          · exact le_of_lt hvx
          · exact le_trans (le_of_lt hvx) (hrr y hy)
        · exact ⟨by simp [toList], hrr, trivial, hbrr⟩
      · split
        · next hge hgt =>
          have hxv : rx < v := cmpVal_gt.mp hgt
          refine ⟨?_, hbnd2, ?_, hbrr⟩
          · intro y hy
            rcases mem_toList_node.mp hy with hy | rfl | hy
            · exact le_trans (hrl y hy) (le_of_lt hxv)
            · exact le_of_lt hxv
            · simp [toList] at hy
          · exact ⟨hrl, by simp [toList], hbrl, trivial⟩
        · next hge hle =>
          have hvx : v = rx := cmpVal_eq_of_not hge hle
          refine ⟨hbnd1, ?_, hbrl, ?_⟩
          · intro y hy
            rcases mem_toList_node.mp hy with hy | rfl | hy
            · simp [toList] at hy
            · exact le_of_eq hvx
            · exact le_trans (le_of_eq hvx) (hrr y hy)
          · exact ⟨by simp [toList], hrr, trivial, hbrr⟩

theorem mem_self_toList {x : α} {l r : Node α} : x ∈ toList (.node x l r) :=
  mem_toList_node.mpr (Or.inr (Or.inl rfl))

theorem splay_root_of_mem [LinearOrder α] {v : α} {t : Node α} (hb : Bst t)
    (hmem : v ∈ toList t) {rx : α} {rl rr : Node α}
    (hsp : splay (cmpVal v) t = .node rx rl rr) : rx = v := by
  have hne : t ≠ .nil := by
    intro h
    rw [h] at hmem
    simp [toList] at hmem
  have hfind : bstFind v t = true := (bstFind_iff_mem hb).mpr hmem
  have h1 : rootVal (splay (cmpVal v) t) = some v := by
    rw [rootVal_splay hne]
    exact bstFind_getLast hfind
  rw [hsp] at h1
  exact Option.some_injective _ h1

theorem delete_of_not_mem [LinearOrder α] {v : α} {t : Node α}
    (h : v ∉ toList t) : delete v t = splay (cmpVal v) t := by
  cases t with
  | nil => rw [delete_nil, splay_nil]
  | node x l r =>
    cases hsp : splay (cmpVal v) (.node x l r) with
    | nil => exact absurd ((splay_eq_nil _ _).mp hsp) (by simp)
    | node rx rl rr =>
      have hrx : rx ∈ toList (.node x l r) := by
        rw [← toList_splay (cmpVal v), hsp]
        exact mem_self_toList
      have hne : cmpVal v rx ≠ 0 := by
        intro h0
        exact h (cmpVal_zero.mp h0 ▸ hrx)
      rw [delete_no_match hsp hne]

theorem toList_delete_not_mem [LinearOrder α] {v : α} {t : Node α}
    (h : v ∉ toList t) : toList (delete v t) = toList t := by
  rw [delete_of_not_mem h, toList_splay]

theorem delete_mem_perm [LinearOrder α] {v : α} {t : Node α} (hb : Bst t)
    (hmem : v ∈ toList t) : (toList t).Perm (v :: toList (delete v t)) := by
  cases t with
  | nil => simp [toList] at hmem
  | node x l r =>
    cases hsp : splay (cmpVal v) (.node x l r) with
    | nil => exact absurd ((splay_eq_nil _ _).mp hsp) (by simp)
    | node rx rl rr =>
      have hrx : rx = v := splay_root_of_mem hb hmem hsp
      subst hrx
      have heq : cmpVal rx rx = 0 := cmpVal_zero.mpr rfl
      have hlist : toList (.node x l r) = toList rl ++ rx :: toList rr := by
        rw [← toList_splay (cmpVal rx), hsp, toList]
      cases hrlc : rl with
      | nil =>
        rw [delete_match_nil (hrlc ▸ hsp) heq, hlist, hrlc]
        simp [toList]
      | node a b c =>
        have hrlne : rl ≠ .nil := by rw [hrlc]; simp
        obtain ⟨mx, ml, hm⟩ := splayMax_shape hrlne
        rw [delete_match hsp heq hrlne hm, hlist]
        have hrleq : toList rl = toList ml ++ [mx] := by
          rw [← toList_splay greatestKey, hm, toList, toList]
        rw [hrleq, toList]
        refine List.perm_middle.trans ?_
        rw [List.append_assoc, List.singleton_append]

theorem bst_delete [LinearOrder α] {v : α} {t : Node α} (hb : Bst t) :
    Bst (delete v t) := by
  by_cases hmem : v ∈ toList t
  · cases t with
    | nil => simp [toList] at hmem
    | node x l r =>
      cases hsp : splay (cmpVal v) (.node x l r) with
      | nil => exact absurd ((splay_eq_nil _ _).mp hsp) (by simp)
      | node rx rl rr =>
        have hrx : rx = v := splay_root_of_mem hb hmem hsp
        subst hrx
        have heq : cmpVal rx rx = 0 := cmpVal_zero.mpr rfl
        have hbs : Bst (.node rx rl rr) := hsp ▸ bst_splay (cmpVal rx) hb
        obtain ⟨hLrl, hLrr, hbrl, hbrr⟩ := hbs
        cases hrlc : rl with
        | nil => rw [delete_match_nil (hrlc ▸ hsp) heq]; exact hbrr
        | node a b c =>
          have hrlne : rl ≠ .nil := by rw [hrlc]; simp
          obtain ⟨mx, ml, hm⟩ := splayMax_shape hrlne
          rw [delete_match hsp heq hrlne hm]
          have hbm : Bst (.node mx ml (.nil : Node α)) := hm ▸ bst_splay greatestKey hbrl
          obtain ⟨hml, _, hbml, _⟩ := hbm
          have hrleq : toList rl = toList ml ++ [mx] := by
            rw [← toList_splay greatestKey, hm, toList, toList]
          have hmx_mem : mx ∈ toList rl := by rw [hrleq]; simp
          refine ⟨hml, ?_, hbml, hbrr⟩
          intro y hy
          exact le_trans (hLrl mx hmx_mem) (hLrr y hy)
  · rw [delete_of_not_mem hmem]
    exact bst_splay _ hb

theorem bst_applyOps [LinearOrder α] {t : Node α} (hb : Bst t) (ops : List (Op α)) :
    Bst (applyOps t ops) := by
  induction ops generalizing t with
  | nil => exact hb
  | cons op ops ih =>
    cases op with
    | ins v => exact ih (bst_insert hb)
    | del v => exact ih (bst_delete hb)

theorem bst_nil [LinearOrder α] : Bst (.nil : Node α) := trivial

theorem minVal_eq_head (t : Node α) : minVal t = (toList t).head? := by
  induction t with
  | nil => rfl
  | node x l r ihl ihr =>
    cases l with
    | nil => simp [minVal, toList]
    | node a b c =>
      rw [toList, List.head?_append_of_ne_nil _ (by simp [toList])]
      unfold minVal
      exact ihl

theorem getLast?_toList_node {x : α} {l r : Node α} :
    (toList (.node x l r)).getLast? = (x :: toList r).getLast? := by
  rw [toList, List.getLast?_append_cons]

theorem maxVal_eq_getLast (t : Node α) : maxVal t = (toList t).getLast? := by
  induction t with
  | nil => rfl
  | node x l r ihl ihr =>
    cases r with
    | nil => rw [getLast?_toList_node]; rfl
    | node a b c =>
      have h1 : maxVal (.node x l (.node a b c)) = maxVal (.node a b c) := rfl
      rw [h1, ihr]
      conv_rhs => rw [getLast?_toList_node]
      rw [getLast?_cons_of_ne_nil (by simp [toList])]

theorem mem_of_head {m : α} {l : List α} (h : l.head? = some m) : m ∈ l := by
  cases l with
  | nil => simp at h
  | cons a l => simp at h; simp [h]

theorem mem_of_getLast {m : α} {l : List α} (h : l.getLast? = some m) : m ∈ l := by
  induction l with
  | nil => simp at h
  | cons a l ih =>
    cases l with
    | nil => simp at h; simp [h]
    | cons b l' =>
      rw [List.getLast?_cons_cons] at h
      exact List.mem_cons_of_mem a (ih h)

theorem sorted_head_le [LinearOrder α] {l : List α} (hs : l.Sorted (· ≤ ·)) {m : α}
    (h : l.head? = some m) : ∀ y ∈ l, m ≤ y := by
  cases l with
  | nil => simp at h
  | cons a l =>
    simp only [List.head?_cons, Option.some_inj] at h
    subst h
    intro y hy
    rcases List.mem_cons.mp hy with rfl | hy
    · exact le_refl y
    · exact (List.sorted_cons.mp hs).1 y hy

theorem sorted_getLast_ge [LinearOrder α] {l : List α} (hs : l.Sorted (· ≤ ·)) {m : α}
    (h : l.getLast? = some m) : ∀ y ∈ l, y ≤ m := by
  induction l with
  | nil => simp at h
  | cons a l ih =>
    obtain ⟨ha, hs'⟩ := List.sorted_cons.mp hs
    cases l with
    | nil =>
      simp only [List.getLast?_singleton, Option.some_inj] at h
      subst h
      simp
    | cons b l' =>
      rw [List.getLast?_cons_cons] at h
      intro y hy
      rcases List.mem_cons.mp hy with rfl | hy
      · exact ha m (mem_of_getLast h)
      · exact ih hs' h y hy

theorem runVisit_nil (f : α → Bool) : runVisit f ([] : List α) = ([], true) := rfl

theorem runVisit_cons (f : α → Bool) (x : α) (xs : List α) :
    runVisit f (x :: xs) =
      if f x then (x :: (runVisit f xs).1, (runVisit f xs).2) else ([x], false) := by
  simp only [runVisit]

theorem runVisit_append (f : α → Bool) (l1 l2 : List α) :
    runVisit f (l1 ++ l2) =
      if (runVisit f l1).2 then
        ((runVisit f l1).1 ++ (runVisit f l2).1, (runVisit f l2).2)
      else runVisit f l1 := by
  induction l1 with
  | nil => simp [runVisit_nil]
  | cons x l1 ih =>
    rw [List.cons_append, runVisit_cons, runVisit_cons f x l1]
    by_cases hf : f x
    · simp only [hf, if_true, ih]
      cases hb : (runVisit f l1).2 with
      | true => simp [hb]
      | false => simp [hb]
    · simp [hf]

theorem iterate_nil (f : α → Bool) : iterate f (.nil : Node α) = ([], true) := rfl

theorem iterate_node (f : α → Bool) (x : α) (l r : Node α) :
    iterate f (.node x l r) =
      if (iterate f l).2 = false then ((iterate f l).1, false)
      else if f x = false then ((iterate f l).1 ++ [x], false)
      else ((iterate f l).1 ++ x :: (iterate f r).1, (iterate f r).2) := by
  simp only [iterate]

theorem iterate_eq_runVisit (f : α → Bool) (t : Node α) :
    iterate f t = runVisit f (toList t) := by
  induction t with
  | nil => rfl
  | node x l r ihl ihr =>
    rw [toList, runVisit_append, iterate_node, ihl, ihr, runVisit_cons]
    cases hrv : runVisit f (toList l) with
    | mk vl bl =>
      cases bl with
      | false => simp
      | true =>
        by_cases hf : f x
        · simp [hf]
        · simp [hf]

theorem runVisit_all_true (f : α → Bool) (l : List α) (h : ∀ y ∈ l, f y = true) :
    runVisit f l = (l, true) := by
  induction l with
  | nil => rfl
  | cons x xs ih =>
    rw [runVisit_cons, if_pos (h x (List.mem_cons_self x xs)),
      ih (fun y hy => h y (List.mem_cons_of_mem x hy))]

theorem count_insert [LinearOrder α] (v x : α) (t : Node α) :
    (toList (insert v t)).count x = (toList t).count x + (if v = x then 1 else 0) := by
  rw [(insert_perm v t).count_eq x]
  simp [List.count_cons]

theorem count_delete_mem [LinearOrder α] {v : α} {t : Node α} (hb : Bst t)
    (hmem : v ∈ toList t) (x : α) :
    (toList t).count x = (toList (delete v t)).count x + (if v = x then 1 else 0) := by
  rw [(delete_mem_perm hb hmem).count_eq x]
  simp [List.count_cons]

theorem len_insert [LinearOrder α] (v : α) (t : Node α) :
    len (insert v t) = len t + 1 := by
  rw [len_toList, len_toList, (insert_perm v t).length_eq]
  simp

theorem len_delete_mem [LinearOrder α] {v : α} {t : Node α} (hb : Bst t)
    (hmem : v ∈ toList t) : len t = len (delete v t) + 1 := by
  rw [len_toList, len_toList, (delete_mem_perm hb hmem).length_eq]
  simp

theorem count_applyOps [LinearOrder α] (x : α) (ops : List (Op α)) :
    ∀ t : Node α, Bst t →
      (toList (applyOps t ops)).count x + succDelCount x t ops
        = (toList t).count x + insCount x ops := by
  induction ops with
  | nil => intro t _; simp [applyOps, succDelCount, insCount]
  | cons op ops ih =>
    intro t hb
    cases op with
    | ins v =>
      have h1 := ih (insert v t) (bst_insert hb)
      rw [applyOps, applyOp, succDelCount, insCount]
      rw [count_insert v x t] at h1
      omega
    | del v =>
      by_cases hmem : v ∈ toList t
      · have h1 := ih (delete v t) (bst_delete hb)
        have h2 := count_delete_mem hb hmem x
        rw [applyOps, applyOp, succDelCount, insCount]
        simp only [hmem, and_true]
        omega
      · have h1 := ih (delete v t) (bst_delete hb)
        rw [toList_delete_not_mem hmem] at h1
        rw [applyOps, applyOp, succDelCount, insCount]
        simp only [hmem, and_false, if_false]
        omega

theorem len_applyOps [LinearOrder α] (ops : List (Op α)) :
    ∀ t : Node α, Bst t →
      len (applyOps t ops) + succDelTotal t ops = len t + insTotal ops := by
  induction ops with
  | nil => intro t _; simp [applyOps, succDelTotal, insTotal]
  | cons op ops ih =>
    intro t hb
    cases op with
    | ins v =>
      have h1 := ih (insert v t) (bst_insert hb)
      rw [applyOps, applyOp, succDelTotal, insTotal]
      rw [len_insert v t] at h1
      omega
    | del v =>
      by_cases hmem : v ∈ toList t
      · have h1 := ih (delete v t) (bst_delete hb)
        have h2 := len_delete_mem hb hmem
        rw [applyOps, applyOp, succDelTotal, insTotal]
        simp only [hmem, if_true]
        omega
      · have h1 := ih (delete v t) (bst_delete hb)
        have h2 : len (delete v t) = len t := by
          rw [len_toList, len_toList, toList_delete_not_mem hmem]
        rw [applyOps, applyOp, succDelTotal, insTotal]
        simp only [hmem, if_false]
        omega

theorem applyOps_append [LinearOrder α] (t : Node α) (ops1 ops2 : List (Op α)) :
    applyOps t (ops1 ++ ops2) = applyOps (applyOps t ops1) ops2 := by
  induction ops1 generalizing t with
  | nil => rfl
  | cons op ops ih => rw [List.cons_append, applyOps, applyOps, ih]

theorem toList_insertAll [LinearOrder α] (l : List α) (t : Node α) :
    (toList (applyOps t (l.map Op.ins))).Perm (l ++ toList t) := by
  induction l generalizing t with
  | nil => simp [applyOps]
  | cons v l ih =>
    rw [List.map_cons, applyOps, applyOp]
    have h1 := ih (insert v t)
    have h2 : (l ++ toList (insert v t)).Perm (l ++ (v :: toList t)) :=
      (insert_perm v t).append_left l
    have h3 : (l ++ (v :: toList t)).Perm (v :: (l ++ toList t)) := List.perm_middle
    rw [List.cons_append]
    exact (h1.trans h2).trans h3

theorem deleteAll [LinearOrder α] (l : List α) :
    ∀ t : Node α, Bst t → (toList t).Perm l → applyOps t (l.map Op.del) = .nil := by
  induction l with
  | nil =>
    intro t _ hperm
    rw [toList_eq_nil.mp hperm.eq_nil]
    rfl
  | cons v l ih =>
    intro t hb hperm
    have hmem : v ∈ toList t := hperm.mem_iff.mpr (List.mem_cons_self v l)
    rw [List.map_cons, applyOps, applyOp]
    refine ih (delete v t) (bst_delete hb) ?_
    have h1 : (v :: toList (delete v t)).Perm (v :: l) :=
      (delete_mem_perm hb hmem).symm.trans hperm
    exact h1.cons_inv

theorem head?_none_iff {l : List α} : l.head? = none ↔ l = [] := by
  cases l <;> simp

theorem getLast?_none_iff {l : List α} : l.getLast? = none ↔ l = [] := by
  induction l with
  | nil => simp
  | cons a l ih =>
    cases l with
    | nil => simp
    | cons b l' =>
      rw [List.getLast?_cons_cons]
      simp [ih]

/-- C1: for every sequence of Insert and Delete calls applied to an initially
empty tree, the resulting tree satisfies the BST ordering invariant: the
in-order traversal is non-descending under Compare, and every node's left
subtree holds only values ≤ its value and its right subtree only values ≥
it. -/
theorem insert_delete_bst_invariant [LinearOrder α] (ops : List (Op α)) :
    (toList (applyOps emptyTree ops)).Sorted (· ≤ ·) ∧ Bst (applyOps emptyTree ops) := by
  have hb : Bst (applyOps (emptyTree : Node α) ops) := bst_applyOps bst_nil ops
  exact ⟨(bst_iff_sorted _).mp hb, hb⟩

/-- C2: after any sequence of Insert and Delete calls on an initially empty
tree, the number of stored values comparing equal to `x` equals the number
of `Insert(x)` calls minus the number of successful `Delete(x)` calls (a
delete is successful exactly when a matching node is present at its time),
and `Len()` equals total inserts minus total successful deletes. -/
theorem multiset_cardinality [LinearOrder α] (ops : List (Op α)) (x : α) :
    ((toList (applyOps emptyTree ops)).count x : Int)
        = (insCount x ops : Int) - (succDelCount x emptyTree ops : Int) ∧
    (len (applyOps emptyTree ops) : Int)
        = (insTotal ops : Int) - (succDelTotal emptyTree ops : Int) := by
  have h1 := count_applyOps x ops emptyTree bst_nil
  have h2 := len_applyOps ops emptyTree bst_nil
  have h3 : toList (emptyTree : Node α) = [] := rfl
  have h4 : len (emptyTree : Node α) = 0 := rfl
  rw [h3] at h1
  rw [h4] at h2
  simp only [List.count_nil] at h1
  omega

/-- C3 (amended): deleting a value not present in the tree leaves `Len()`
and the full in-order sequence of values unchanged (the tree is still
restructured by the splay, so `Height()` may change). -/
theorem delete_absent_preserves_len_and_order [LinearOrder α] (v : α) (t : Node α)
    (h : v ∉ toList t) :
    toList (delete v t) = toList t ∧ len (delete v t) = len t :=
  ⟨toList_delete_not_mem h, by rw [len_toList, len_toList, toList_delete_not_mem h]⟩

/-- C3 (counterexample): on the reachable tree built by inserting 1, 5, 3,
deleting the absent value 4 changes `Height()` from 2 to 3, refuting the
claim that Height is unchanged by a delete of an absent value. -/
theorem delete_absent_height_changes :
    (4 : Int) ∉ toList (applyOps (emptyTree : Node Int) [.ins 1, .ins 5, .ins 3]) ∧
    height (delete (4 : Int) (applyOps (emptyTree : Node Int) [.ins 1, .ins 5, .ins 3]))
      ≠ height (applyOps (emptyTree : Node Int) [.ins 1, .ins 5, .ins 3]) := by
  constructor
  · decide
  · decide

theorem delete_absent_preserves_len_and_order_witness :
    toList (delete (4 : Int) (.node 3 (.node 1 .nil .nil) (.node 5 .nil .nil))) = [1, 3, 5] ∧
    len (delete (4 : Int) (.node 3 (.node 1 .nil .nil) (.node 5 .nil .nil))) = 3 := by
  have h := delete_absent_preserves_len_and_order (4 : Int)
    (.node 3 (.node 1 .nil .nil) (.node 5 .nil .nil)) (by decide)
  refine ⟨?_, ?_⟩
  · rw [h.1]; rfl
  · rw [h.2]; rfl

/-- C4: splay on an empty slot is a no-op; on a non-empty subtree the new
root referenced by the slot is the last node of the naive BST search path
toward `v`; in particular, when a node comparing equal to `v` lies on that
search path, the new root's value compares equal to `v`. -/
theorem splay_reaches_search_path_end [LinearOrder α] (v : α) (t : Node α) :
    splay (cmpVal v) (emptyTree : Node α) = emptyTree ∧
    (t ≠ emptyTree → rootVal (splay (cmpVal v) t) = (searchPath v t).getLast?) ∧
    (bstFind v t = true → ∃ rl rr, splay (cmpVal v) t = .node v rl rr) := by
  refine ⟨splay_nil, fun h => rootVal_splay h, fun hf => ?_⟩
  have hne : t ≠ .nil := by
    intro h
    rw [h] at hf
    simp [bstFind] at hf
  have h1 : rootVal (splay (cmpVal v) t) = some v := by
    rw [rootVal_splay hne]
    exact bstFind_getLast hf
  cases hsp : splay (cmpVal v) t with
  | nil => rw [hsp] at h1; simp [rootVal] at h1
  | node rx rl rr =>
    rw [hsp] at h1
    simp only [rootVal, Option.some_inj] at h1
    exact ⟨rl, rr, by rw [h1]⟩

theorem splay_reaches_search_path_end_witness :
    rootVal (splay (cmpVal (3 : Int)) (.node 1 .nil (.node 3 .nil .nil))) = some 3 ∧
    ∃ rl rr, splay (cmpVal (3 : Int)) (.node 1 .nil (.node 3 .nil .nil)) = .node 3 rl rr := by
  have h := splay_reaches_search_path_end (3 : Int) (.node 1 .nil (.node 3 .nil .nil))
  refine ⟨?_, h.2.2 (by decide)⟩
  rw [h.2.1 (by decide)]
  decide

/-- C5: Delete removes at most one node equal to `v`; it removes nothing on
an empty tree or when the splayed root does not compare equal to `v` (the
tree is then just the splayed tree); on a match with no left child the right
child becomes the root, and otherwise the left subtree is splayed toward the
always-greater sentinel, yielding a root with no right child, the old right
subtree is attached there, and that node becomes the root. -/
theorem delete_spec [LinearOrder α] (v : α) (t : Node α) :
    delete v (emptyTree : Node α) = emptyTree ∧
    (∀ rx rl rr, splay (cmpVal v) t = .node rx rl rr →
      (rx ≠ v → delete v t = .node rx rl rr) ∧
      (rx = v → rl = .nil → delete v t = rr) ∧
      (rx = v → ∀ mx ml mr, splay greatestKey rl = .node mx ml mr →
        mr = .nil ∧ delete v t = .node mx ml rr)) ∧
    (toList (delete v t) = toList t ∨
      ∃ L1 L2, toList t = L1 ++ v :: L2 ∧ toList (delete v t) = L1 ++ L2) := by
  refine ⟨delete_nil v, ?_, ?_⟩
  · intro rx rl rr hsp
    cases t with
    | nil => rw [splay_nil] at hsp; exact absurd hsp (by simp)
    | node x l r =>
      refine ⟨?_, ?_, ?_⟩
      · intro hne
        exact delete_no_match hsp (fun h0 => hne (cmpVal_zero.mp h0).symm)
      · intro heq hrl
        subst heq
        exact delete_match_nil (hrl ▸ hsp) (cmpVal_zero.mpr rfl)
      · intro heq mx ml mr hm
        subst heq
        have hrlne : rl ≠ .nil := by
          intro h0
          rw [h0, splay_nil] at hm
          exact absurd hm (by simp)
        obtain ⟨mx', ml', hm'⟩ := splayMax_shape hrlne
        rw [hm'] at hm
        have e1 : mx' = mx := by injection hm
        have e2 : ml' = ml := by injection hm
        have e3 : (.nil : Node α) = mr := by injection hm
        subst e1; subst e2
        exact ⟨e3.symm, delete_match hsp (cmpVal_zero.mpr rfl) hrlne (e3 ▸ hm')⟩
  · cases t with
    | nil => exact Or.inl (by rw [delete_nil])
    | node x l r =>
      cases hsp : splay (cmpVal v) (.node x l r) with
      | nil => exact absurd ((splay_eq_nil _ _).mp hsp) (by simp)
      | node rx rl rr =>
        have hlist : toList (.node x l r) = toList rl ++ rx :: toList rr := by
          rw [← toList_splay (cmpVal v), hsp, toList]
        by_cases h0 : cmpVal v rx = 0
        · have hveq : v = rx := cmpVal_zero.mp h0
          subst hveq
          refine Or.inr ?_
          cases hrlc : rl with
          | nil =>
            refine ⟨[], toList rr, ?_, ?_⟩
            · rw [hlist, hrlc]; simp [toList]
            · rw [delete_match_nil (hrlc ▸ hsp) h0]; simp
          | node a b c =>
            have hrlne : rl ≠ .nil := by rw [hrlc]; simp
            obtain ⟨mx, ml, hm⟩ := splayMax_shape hrlne
            have hrleq : toList rl = toList ml ++ [mx] := by
              rw [← toList_splay greatestKey, hm, toList, toList]
            refine ⟨toList ml ++ [mx], toList rr, ?_, ?_⟩
            · rw [hlist, hrleq]
            · rw [delete_match hsp h0 hrlne hm, toList]
              simp
        · refine Or.inl ?_
          rw [delete_no_match hsp h0, hlist, toList]

theorem delete_spec_witness :
    delete (3 : Int) (.node 3 (.node 1 .nil .nil) (.node 5 .nil .nil))
      = .node 1 .nil (.node 5 .nil .nil) ∧
    delete (2 : Int) (.node 1 .nil .nil) = .node 1 .nil .nil := by
  have h1 := delete_spec (3 : Int) (.node 3 (.node 1 .nil .nil) (.node 5 .nil .nil))
  have h2 := delete_spec (2 : Int) (.node 1 (.nil : Node Int) .nil)
  constructor
  · exact ((h1.2.1 3 (.node 1 .nil .nil) (.node 5 .nil .nil) (by decide)).2.2 rfl
      1 .nil .nil (by decide)).2
  · exact (h2.2.1 1 .nil .nil (by decide)).1 (by decide)

/-- C6: Insert always succeeds (the length grows by one, duplicates
included); on an empty tree `v` becomes the sole root; otherwise, after
splaying toward `v`, a new node holding `v` becomes the root, taking the
splayed root's left subtree and the splayed root itself when `v` compares
less than or equal to it — so a duplicate lands immediately left of the
existing equal node in the in-order sequence — and the mirror arrangement
when `v` compares greater. -/
theorem insert_spec [LinearOrder α] (v : α) (t : Node α) :
    insert v (emptyTree : Node α) = .node v .nil .nil ∧
    len (insert v t) = len t + 1 ∧
    (∀ rx rl rr, splay (cmpVal v) t = .node rx rl rr →
      (¬ rx < v → insert v t = .node v rl (.node rx .nil rr) ∧
        toList (insert v t) = toList rl ++ v :: rx :: toList rr) ∧
      (rx < v → insert v t = .node v (.node rx rl .nil) rr ∧
        toList (insert v t) = toList rl ++ rx :: v :: toList rr)) := by
  refine ⟨rfl, len_insert v t, ?_⟩
  intro rx rl rr hsp
  cases t with
  | nil => rw [splay_nil] at hsp; exact absurd hsp (by simp)
  | node x l r =>
    constructor
    · intro hle
      have heq : insert v (.node x l r) = .node v rl (.node rx .nil rr) := by
        rw [insert_eq hsp]
        by_cases hlt : cmpVal v rx < 0
        · rw [if_pos hlt]
        · rw [if_neg hlt, if_neg (fun hgt => hle (cmpVal_gt.mp hgt))]
      exact ⟨heq, by rw [heq]; simp [toList]⟩
    · intro hgt
      have heq : insert v (.node x l r) = .node v (.node rx rl .nil) rr := by
        rw [insert_eq hsp, if_neg (fun hlt => absurd (cmpVal_lt.mp hlt) (not_lt.mpr (le_of_lt hgt))),
          if_pos (cmpVal_gt.mpr hgt)]
      exact ⟨heq, by rw [heq]; simp [toList]⟩

theorem insert_spec_witness :
    insert (3 : Int) (.node 3 .nil .nil) = .node 3 .nil (.node 3 .nil .nil) ∧
    toList (insert (3 : Int) (.node 3 .nil .nil)) = [3, 3] ∧
    insert (7 : Int) (.node 3 .nil .nil) = .node 7 (.node 3 .nil .nil) .nil := by
  have h := insert_spec (3 : Int) (.node 3 (.nil : Node Int) .nil)
  have h7 := insert_spec (7 : Int) (.node 3 (.nil : Node Int) .nil)
  obtain ⟨ha, hb⟩ := (h.2.2 3 .nil .nil (by decide)).1 (by decide)
  refine ⟨ha, by rw [hb]; rfl, ?_⟩
  exact ((h7.2.2 3 .nil .nil (by decide)).2 (by decide)).1

/-- C7: for every reachable tree state, Min and Max return the minimum and
maximum of the stored multiset when the tree is non-empty, and return the
empty indicator exactly when the tree is empty. -/
theorem min_max_spec [LinearOrder α] (ops : List (Op α)) :
    (minVal (applyOps (emptyTree : Node α) ops) = none ↔ applyOps emptyTree ops = emptyTree) ∧
    (maxVal (applyOps (emptyTree : Node α) ops) = none ↔ applyOps emptyTree ops = emptyTree) ∧
    (∀ m, minVal (applyOps (emptyTree : Node α) ops) = some m →
      m ∈ toList (applyOps emptyTree ops) ∧
      ∀ y ∈ toList (applyOps emptyTree ops), m ≤ y) ∧
    (∀ m, maxVal (applyOps (emptyTree : Node α) ops) = some m →
      m ∈ toList (applyOps emptyTree ops) ∧
      ∀ y ∈ toList (applyOps emptyTree ops), y ≤ m) := by
  have hs : (toList (applyOps (emptyTree : Node α) ops)).Sorted (· ≤ ·) :=
    (insert_delete_bst_invariant ops).1
  refine ⟨?_, ?_, ?_, ?_⟩
  · rw [minVal_eq_head, head?_none_iff, toList_eq_nil]
    exact Iff.rfl
  · rw [maxVal_eq_getLast, getLast?_none_iff, toList_eq_nil]
    exact Iff.rfl
  · intro m hm
    rw [minVal_eq_head] at hm
    exact ⟨mem_of_head hm, sorted_head_le hs hm⟩
  · intro m hm
    rw [maxVal_eq_getLast] at hm
    exact ⟨mem_of_getLast hm, sorted_getLast_ge hs hm⟩

theorem min_max_spec_witness :
    (3 : Int) ∈ toList (applyOps (emptyTree : Node Int) [.ins 5, .ins 3]) ∧
    (5 : Int) ∈ toList (applyOps (emptyTree : Node Int) [.ins 5, .ins 3]) := by
  have h := min_max_spec (α := Int) [.ins 5, .ins 3]
  exact ⟨(h.2.2.1 3 (by decide)).1, (h.2.2.2 5 (by decide)).1⟩

/-- C8: inserting the values of a list into an empty tree and then deleting
them all, in any order, leaves the empty tree, with length 0 and height 0. -/
theorem insert_then_delete_all_empties [LinearOrder α] (l1 l2 : List α) (h : l1.Perm l2) :
    applyOps (emptyTree : Node α) (l1.map Op.ins ++ l2.map Op.del) = emptyTree ∧
    len (applyOps (emptyTree : Node α) (l1.map Op.ins ++ l2.map Op.del)) = 0 ∧
    height (applyOps (emptyTree : Node α) (l1.map Op.ins ++ l2.map Op.del)) = 0 := by
  have hnil : applyOps (emptyTree : Node α) (l1.map Op.ins ++ l2.map Op.del) = emptyTree := by
    rw [applyOps_append]
    refine deleteAll l2 _ (bst_applyOps bst_nil _) ?_
    have h1 := toList_insertAll l1 (emptyTree : Node α)
    have h2 : toList (emptyTree : Node α) = [] := rfl
    rw [h2, List.append_nil] at h1
    exact h1.trans h
  exact ⟨hnil, by rw [hnil]; rfl, by rw [hnil]; rfl⟩

theorem insert_then_delete_all_empties_witness :
    applyOps (emptyTree : Node Int) ([1, 2].map Op.ins ++ [2, 1].map Op.del) = emptyTree := by
  exact (insert_then_delete_all_empties [1, 2] [2, 1] (by decide)).1

/-- C9: Iterate calls the visit function on the stored values in ascending
in-order sequence, stopping right after the first call that returns false;
when no call returns false every stored value is visited exactly once. -/
theorem iterate_spec [LinearOrder α] (ops : List (Op α)) (f : α → Bool) :
    iterate f (applyOps (emptyTree : Node α) ops)
        = runVisit f (toList (applyOps emptyTree ops)) ∧
    (toList (applyOps (emptyTree : Node α) ops)).Sorted (· ≤ ·) ∧
    ((∀ y ∈ toList (applyOps (emptyTree : Node α) ops), f y = true) →
      iterate f (applyOps emptyTree ops) = (toList (applyOps emptyTree ops), true)) := by
  refine ⟨iterate_eq_runVisit f _, (insert_delete_bst_invariant ops).1, fun hall => ?_⟩
  rw [iterate_eq_runVisit f _, runVisit_all_true f _ hall]

theorem iterate_spec_witness :
    iterate (fun _ => true) (applyOps (emptyTree : Node Int) [.ins 2, .ins 1]) = ([1, 2], true) := by
  have h := iterate_spec (α := Int) [.ins 2, .ins 1] (fun _ => true)
  rw [h.2.2 (fun y hy => rfl)]
  decide

/-- C10: splay preserves the in-order sequence of values exactly, for every
key function (so also for the sentinel splays inside Delete); consequently
the stored length is invariant under any splay. -/
theorem splay_preserves_inorder (k : α → Int) (t : Node α) :
    toList (splay k t) = toList t ∧ len (splay k t) = len t :=
  ⟨toList_splay k t, len_splay k t⟩

end Splaytree
